import Mathlib

/-!
Verification of the `whatnow` TypeScript library against its specification.

The library is a small in-process sequencer: a single-consumer FIFO queue
(`src/internal/Queue.ts`) and an execution engine (`WhatNow.ts`) that runs a
chain of asynchronous step handlers per queued item, supports mid-chain
abort-and-restart (`reset`), and reports handler failures.

The shallow embedding below translates the two classes into pure Lean
functions.  The queue's `onUpdate` callback is modelled by returning a `Bool`
recording whether the callback was invoked; the engine interprets that flag
exactly where the TypeScript wiring would run `processStep`.  Handlers are
async functions; in the JavaScript event loop the only scheduling points are
the `await` of each handler invocation, so a handler is modelled as a pure
function of the read-only view it receives that yields the ordered list of
`act`/`reset` calls issued during its invocation (by itself or by external
code that runs while its promise is pending) together with its outcome
(resolution or rejection).  The engine interpreter is fuel-indexed and
returns `none` on fuel exhaustion, since a cyclic handler table genuinely
diverges.  Observable behaviour (handler invocations, `onChange`/`onError`
callback firings, the queue release, and the processing-marker lifecycle) is
recorded in an event trace.
-/

namespace Whatnow

/-! ## Queue (src/internal/Queue.ts)

```ts
export class Queue<T> {
  private items: T[] = []
  private _current: T | undefined
  private onUpdate: () => void
  ...
}
```
-/

/-- The observable fields of `Queue<T>`: the pending list and the current
item.  The `onUpdate` callback is not part of the state; operations return a
`Bool` saying whether they invoked it. -/
structure Queue (T : Type) where
  items : List T
  current : Option T
deriving DecidableEq

namespace Queue

/-- The queue of a freshly constructed, never-populated instance. -/
def emptyQ (T : Type) : Queue T := ⟨[], none⟩

/-- `next()` (Queue.ts 43-50): if an item is current or nothing is pending,
do nothing; otherwise shift the front pending item into the current slot and
invoke `onUpdate` (reported as the returned flag). -/
def next {T : Type} (q : Queue T) : Queue T × Bool :=
  match q.current, q.items with
  | some c, items => (⟨items, some c⟩, false)
  | none, [] => (⟨[], none⟩, false)
  | none, x :: rest => (⟨rest, some x⟩, true)

/-- `enqueue(item)` (Queue.ts 24-30): push the item to the back, then run
`next()` when no item is current. -/
def enqueue {T : Type} (q : Queue T) (item : T) : Queue T × Bool :=
  let q1 : Queue T := ⟨q.items ++ [item], q.current⟩
  match q1.current with
  | some _ => (q1, false)
  | none => q1.next

/-- `done()` (Queue.ts 55-58): clear the current slot and run `next()`. -/
def done {T : Type} (q : Queue T) : Queue T × Bool :=
  Queue.next ⟨q.items, none⟩

/-- `clear()` (Queue.ts 35-38): drop all pending items and the current
marker; no notification. -/
def clear {T : Type} (_q : Queue T) : Queue T := ⟨[], none⟩

end Queue

/-- The operations a queue owner can perform, for stating observational
properties of reachable queue states. -/
inductive QOp (T : Type) where
  | enq (t : T)
  | done
  | clear
deriving DecidableEq

/-- Apply one queue operation; the flag records whether `onUpdate` fired. -/
def qApply {T : Type} (q : Queue T) : QOp T → Queue T × Bool
  | .enq t => q.enqueue t
  | .done => q.done
  | .clear => (q.clear, false)

/-- Run a list of queue operations, recording after each one whether
`onUpdate` fired and which item is current. -/
def qRun {T : Type} (q : Queue T) : List (QOp T) → Queue T × List (Bool × Option T)
  | [] => (q, [])
  | op :: ops =>
    let s := qApply q op
    let r := qRun s.1 ops
    (r.1, (s.2, s.1.current) :: r.2)

/-- The queue invariant implicit in Queue.ts: pending items exist only while
some item is marked current. -/
def QInv {T : Type} (q : Queue T) : Prop := q.current = none → q.items = []

/-! ## Engine data model (WhatNow.ts)

Type parameters mirror the TypeScript generics: `Step` the step-identifier
domain (`TStep extends string`), `σ` the external state (`TState`), `γ` the
internal context (`TContext`), `P` the payload (`Partial<TPayload>`; the
object literal `{}` used as the default and cleared payload is the
distinguished value `pempty` of the configuration). -/

/-- A queued work item `StepAction = { step, payload }` (WhatNow.ts 51-54).
`act` always supplies a payload (defaulting to `{}`), so the field is total
here. -/
structure StepAction (Step P : Type) where
  step : Step
  payload : P
deriving DecidableEq

/-- A handler's return value `StepHandlerReturn = { step, state?, context? }`
(WhatNow.ts 17-25).  `state` and `context` are objects, hence truthy exactly
when present, so the `if (result.state)` tests translate to `Option`
matches. -/
structure StepHandlerReturn (Step σ γ : Type) where
  step : Step
  state : Option σ
  context : Option γ
deriving DecidableEq

/-- A JavaScript thrown value: either an `Error` instance (carrying its
message) or any other value (carrying its string rendering). -/
inductive Thrown where
  | isError (msg : String)
  | notError (rendered : String)
deriving DecidableEq

/-- The normalization in the catch clause (WhatNow.ts 220-221):
`e instanceof Error ? e : new Error(...)`. -/
def normalizeThrown : Thrown → String
  | .isError msg => msg
  | .notError s => "Unexpected error: " ++ s

/-- A call made on the `act`/`reset` capabilities handed to a handler
(WhatNow.ts 176-179), or made by external code while the handler's promise
is pending — both re-enter the same public methods at the same scheduling
point. -/
inductive EngineCall (Step P : Type) where
  | act (step : Step) (payload : P)
  | reset (step : Step)
deriving DecidableEq

/-- How a handler invocation's promise settles: resolved or rejected. -/
inductive HandlerOutcome (Step σ γ : Type) where
  | ok (r : StepHandlerReturn Step σ γ)
  | threw (t : Thrown)
deriving DecidableEq

/-- A step handler (WhatNow.ts 29-40), modelled as a pure function of the
read-only view `{state, context, step, payload}` it receives, yielding the
ordered `act`/`reset` calls issued during the invocation and its outcome. -/
def StepHandler (Step σ γ P : Type) : Type :=
  σ → γ → Step → P → List (EngineCall Step P) × HandlerOutcome Step σ γ

/-- The configuration held by the engine: the handler table
(`steps : Record<TStep, StepHandler | null>`, where a `none` entry is the
terminal marker) plus the value standing for the object literal `{}` of the
payload type. -/
structure WhatNowConfig (Step σ γ P : Type) where
  steps : Step → Option (StepHandler Step σ γ P)
  pempty : P

/-- The mutable fields of a `WhatNow` instance (WhatNow.ts 80-96):
`_state`, `_context`, the queue of pending step actions, the reentrancy
marker `processingStep` and the pending reset target `resettingStep`. -/
structure WhatNow (Step σ γ P : Type) where
  state : σ
  context : γ
  queue : Queue (StepAction Step P)
  processingStep : Option Step
  resettingStep : Option Step
deriving DecidableEq

/-- Observable events of a run: the processing marker being set (`begin`, a
chain starting) and cleared normally (`stop`), a handler invocation with the
view it receives, the `onChange` callback (recording what the `state`
accessor returns at the moment it runs), the `onError` callback with the
normalized message, and the queue release call `queue.done()`. -/
inductive Ev (Step σ γ P : Type) where
  | begin (s : Step)
  | invoke (s : Step) (st : σ) (cx : γ) (p : P)
  | change (st : σ)
  | error (msg : String)
  | stop
  | done
deriving DecidableEq

/-- Commit of a non-aborted invocation's result (WhatNow.ts 187-196):
replace the context if one was returned, then replace the state and fire
`onChange` if one was returned.  The `change` event records the value the
`state` accessor returns at the moment `onChange` runs — that is, after the
assignment on line 194. -/
def commitResult {Step σ γ P : Type} (e : WhatNow Step σ γ P)
    (r : StepHandlerReturn Step σ γ) : WhatNow Step σ γ P × List (Ev Step σ γ P) :=
  let e1 := match r.context with
    | some cx => { e with context := cx }
    | none => e
  match r.state with
  | some st =>
    let e2 := { e1 with state := st }
    (e2, [.change e2.state])
  | none => (e1, [])

/-- `WhatNow.reset` (WhatNow.ts 242-246): unconditionally record the reset
target, clear the reentrancy marker and empty the queue.  `Queue.clear`
fires no notification, so no processing is triggered here. -/
def WhatNow.reset {Step σ γ P : Type} (e : WhatNow Step σ γ P) (resetStep : Step) :
    WhatNow Step σ γ P :=
  { e with resettingStep := some resetStep
         , processingStep := none
         , queue := e.queue.clear }

/-- `WhatNow.act` (WhatNow.ts 230-237), parameterized by the continuation
`proc` that the queue's `onUpdate` callback runs (`processStep` at the
appropriate fuel): drop the request while a reset is pending, otherwise
enqueue it; if the queue promoted it to current, the `onUpdate` callback
runs `processStep` synchronously. -/
def actF {Step σ γ P : Type}
    (proc : WhatNow Step σ γ P → Option (WhatNow Step σ γ P × List (Ev Step σ γ P)))
    (e : WhatNow Step σ γ P) (step : Step) (payload : P) :
    Option (WhatNow Step σ γ P × List (Ev Step σ γ P)) :=
  if e.resettingStep.isSome then some (e, [])
  else
    let s := e.queue.enqueue ⟨step, payload⟩
    let e1 := { e with queue := s.1 }
    if s.2 then proc e1 else some (e1, [])

/-- Apply, in order, the `act`/`reset` calls issued during one handler
invocation.  Each call runs the corresponding public method. -/
def applyCallsF {Step σ γ P : Type}
    (proc : WhatNow Step σ γ P → Option (WhatNow Step σ γ P × List (Ev Step σ γ P)))
    (e : WhatNow Step σ γ P) :
    List (EngineCall Step P) → Option (WhatNow Step σ γ P × List (Ev Step σ γ P))
  | [] => some (e, [])
  | .act s p :: cs =>
    match actF proc e s p with
    | none => none
    | some (e1, t1) =>
      match applyCallsF proc e1 cs with
      | none => none
      | some (e2, t2) => some (e2, t1 ++ t2)
  | .reset r :: cs => applyCallsF proc (e.reset r) cs

/-- How the `while` loop of `processStep` (WhatNow.ts 162-202) was left:
`finished` covers both the terminal marker and the `break` on line 184 and
falls through to line 204; `earlyReturn` is the plain `return` on line 165,
which leaves the whole method without clearing the processing marker;
`failed` is a rejected handler invocation, which transfers to the catch
clause. -/
inductive ChainExit where
  | finished
  | earlyReturn
  | failed (msg : String)
deriving DecidableEq

/-- The handler loop of `processStep` (WhatNow.ts 157-202).  One fuel unit
per iteration; `none` means the fuel ran out (the loop genuinely diverges on
a cyclic non-terminal handler table). -/
def chainLoopF {Step σ γ P : Type} [DecidableEq Step]
    (cfg : WhatNowConfig Step σ γ P)
    (proc : WhatNow Step σ γ P → Option (WhatNow Step σ γ P × List (Ev Step σ γ P))) :
    Nat → WhatNow Step σ γ P → Step → P →
    Option (WhatNow Step σ γ P × List (Ev Step σ γ P) × ChainExit)
  | 0, _, _, _ => none
  | fuel + 1, e, s, p =>
    match cfg.steps s with
    | none => some (e, [], .finished)
    | some h =>
      if e.resettingStep.isSome then some (e, [], .earlyReturn)
      else
        let hr := h e.state e.context s p
        let ev0 : Ev Step σ γ P := .invoke s e.state e.context p
        match applyCallsF proc e hr.1 with
        | none => none
        | some (e1, t1) =>
          match hr.2 with
          | .threw th => some (e1, ev0 :: t1, .failed (normalizeThrown th))
          | .ok r =>
            if e1.resettingStep.isSome then some (e1, ev0 :: t1, .finished)
            else
              let c := commitResult e1 r
              match chainLoopF cfg proc fuel c.1 r.step cfg.pempty with
              | none => none
              | some (e3, t3, x) => some (e3, ev0 :: t1 ++ c.2 ++ t3, x)

/-- Lines 155-224 of `processStep`: set the processing marker, run the
handler loop, then handle normal completion (consume a pending reset by
re-enqueuing its target, else release the queue) or failure (clear the
marker and fire `onError`). -/
def processTry {Step σ γ P : Type} [DecidableEq Step]
    (cfg : WhatNowConfig Step σ γ P)
    (proc : WhatNow Step σ γ P → Option (WhatNow Step σ γ P × List (Ev Step σ γ P)))
    (cf : Nat) (e : WhatNow Step σ γ P) (cur : StepAction Step P) :
    Option (WhatNow Step σ γ P × List (Ev Step σ γ P)) :=
  let e1 := { e with processingStep := some cur.step }
  match chainLoopF cfg proc cf e1 cur.step cur.payload with
  | none => none
  | some (e2, t, .earlyReturn) => some (e2, .begin cur.step :: t)
  | some (e2, t, .failed msg) =>
    some ({ e2 with processingStep := none }, .begin cur.step :: t ++ [.error msg])
  | some (e2, t, .finished) =>
    let e3 : WhatNow Step σ γ P := { e2 with processingStep := none }
    let evs : List (Ev Step σ γ P) := .begin cur.step :: t ++ [.stop]
    match e3.resettingStep with
    | some r =>
      let e4 : WhatNow Step σ γ P := { e3 with resettingStep := none }
      match actF proc e4 r cfg.pempty with
      | none => none
      | some (e5, t5) => some (e5, evs ++ t5)
    | none =>
      let s := e3.queue.done
      let e4 : WhatNow Step σ γ P := { e3 with queue := s.1 }
      if s.2 then
        match proc e4 with
        | none => none
        | some (e5, t5) => some (e5, evs ++ .done :: t5)
      else some (e4, evs ++ [.done])

/-- The body of `processStep` (WhatNow.ts 136-225): the guards on lines
139-153 (no current item, reentrancy, pending-reset mismatch), then the
`try`.  `proc` is the next-lower-fuel `processStep`, run wherever the
TypeScript wiring re-enters it (queue notification or `this.act`). -/
def processStepAux {Step σ γ P : Type} [DecidableEq Step]
    (cfg : WhatNowConfig Step σ γ P)
    (proc : WhatNow Step σ γ P → Option (WhatNow Step σ γ P × List (Ev Step σ γ P)))
    (cf : Nat) (e : WhatNow Step σ γ P) :
    Option (WhatNow Step σ γ P × List (Ev Step σ γ P)) :=
  match e.queue.current with
  | none => some (e, [])
  | some cur =>
    if e.processingStep = some cur.step then some (e, [])
    else
      match e.resettingStep with
      | some r =>
        if cur.step = r then
          processTry cfg proc cf { e with resettingStep := none } cur
        else some (e, [])
      | none => processTry cfg proc cf e cur

/-- `processStep` with `fuel` bounding loop iterations and nested
re-entries; `none` means the fuel ran out.  Defined by `Nat.rec` so closed
runs reduce definitionally. -/
def processStep {Step σ γ P : Type} [DecidableEq Step]
    (cfg : WhatNowConfig Step σ γ P) (fuel : Nat) :
    WhatNow Step σ γ P → Option (WhatNow Step σ γ P × List (Ev Step σ γ P)) :=
  Nat.rec (motive := fun _ => WhatNow Step σ γ P →
      Option (WhatNow Step σ γ P × List (Ev Step σ γ P)))
    (fun _ => none)
    (fun f ih e => processStepAux cfg ih (f + 1) e)
    fuel

/-- The public `act` entry point (WhatNow.ts 230-237) at a given fuel. -/
def WhatNow.act {Step σ γ P : Type} [DecidableEq Step]
    (cfg : WhatNowConfig Step σ γ P) (fuel : Nat) (e : WhatNow Step σ γ P)
    (step : Step) (payload : P) :
    Option (WhatNow Step σ γ P × List (Ev Step σ γ P)) :=
  actF (processStep cfg fuel) e step payload

/-- A top-level client call on the public surface. -/
inductive PubCall (Step P : Type) where
  | act (s : Step) (p : P)
  | reset (s : Step)
deriving DecidableEq

/-- Run a sequence of top-level client calls, each `act` processed with fuel
`fuel`; `reset` runs no processing (its `Queue.clear` does not notify). -/
def pubRun {Step σ γ P : Type} [DecidableEq Step]
    (cfg : WhatNowConfig Step σ γ P) (fuel : Nat) (e : WhatNow Step σ γ P) :
    List (PubCall Step P) → Option (WhatNow Step σ γ P × List (Ev Step σ γ P))
  | [] => some (e, [])
  | .act s p :: cs =>
    match WhatNow.act cfg fuel e s p with
    | none => none
    | some (e1, t1) =>
      match pubRun cfg fuel e1 cs with
      | none => none
      | some (e2, t2) => some (e2, t1 ++ t2)
  | .reset r :: cs => pubRun cfg fuel (e.reset r) cs

/-! ## Predicates and observations used by the statements -/

/-- Engine at rest: nothing processing, no pending reset, idle empty queue. -/
def IsIdle {Step σ γ P : Type} (e : WhatNow Step σ γ P) : Prop :=
  e.processingStep = none ∧ e.resettingStep = none ∧ e.queue = ⟨[], none⟩

/-- The state an idle engine enters on `reset`: a pending reset target with
an empty queue.  Nothing ever consumes the target from here (`act` drops its
request while a reset is pending, and only `processStep` — which is
triggered solely by queue promotion — clears `resettingStep`). -/
def Stuck {Step σ γ P : Type} (e : WhatNow Step σ γ P) : Prop :=
  e.resettingStep.isSome = true ∧ e.queue = ⟨[], none⟩

/-- Data events of a chain (handler invocations and `onChange` firings), as
opposed to the control events `begin`/`stop`/`done`/`error`. -/
def isData {Step σ γ P : Type} : Ev Step σ γ P → Bool
  | .invoke _ _ _ _ => true
  | .change _ => true
  | _ => false

/-- Recognizer for `begin` (a chain starting). -/
def isBeginEv {Step σ γ P : Type} : Ev Step σ γ P → Bool
  | .begin _ => true
  | _ => false

/-- Number of `onChange` firings in a trace. -/
def countChange {Step σ γ P : Type} (t : List (Ev Step σ γ P)) : Nat :=
  t.countP fun ev => match ev with | .change _ => true | _ => false

/-- The payloads passed to the handler invocations of a trace, in order. -/
def invokePayloads {Step σ γ P : Type} (t : List (Ev Step σ γ P)) : List P :=
  t.filterMap fun ev => match ev with | .invoke _ _ _ p => some p | _ => none

/-- Every `onError` firing in the trace is its last event (no `error` occurs
before the final position): after a failure is delivered, nothing further
happens in the run — in particular there is at most one failure delivery and
no handler invocation after it. -/
def NoErrButLast {Step σ γ P : Type} (t : List (Ev Step σ γ P)) : Prop :=
  ∀ msg, Ev.error msg ∉ t.dropLast

/-- The trace ends in an `onError` firing. -/
def EndsErr {Step σ γ P : Type} (t : List (Ev Step σ γ P)) : Prop :=
  ∃ msg, t.getLast? = some (Ev.error msg)

/-- The trace is the concatenation, in order, of one complete chain segment
per listed step: the processing marker set at that step, data events only,
then the marker cleared and the queue released. -/
def ChainSegs {Step σ γ P : Type} : List (Ev Step σ γ P) → List Step → Prop
  | t, [] => t = []
  | t, s :: ss => ∃ body rest,
      t = .begin s :: body ++ [.stop, .done] ++ rest ∧
      body.all isData = true ∧ ChainSegs rest ss

/-- The work items a sequence of client calls would enqueue. -/
def itemsOf {Step P : Type} : List (PubCall Step P) → List (StepAction Step P)
  | [] => []
  | .act s p :: cs => ⟨s, p⟩ :: itemsOf cs
  | .reset _ :: cs => itemsOf cs

/-- The call sequence contains only `act` calls. -/
def ActsOnly {Step P : Type} (cs : List (PubCall Step P)) : Prop :=
  ∀ c ∈ cs, ∃ s p, c = PubCall.act s p

/-- A handler table whose handlers make no `act`/`reset` calls and always
resolve. -/
def PureCfg {Step σ γ P : Type} (cfg : WhatNowConfig Step σ γ P) : Prop :=
  ∀ s h, cfg.steps s = some h →
    ∀ st cx p, (h st cx s p).1 = [] ∧ ∃ r, (h st cx s p).2 = .ok r

/-! ## Concrete fixtures for counterexamples and witnesses -/

/-- A freshly constructed engine over `Nat` instantiations: initial state 0,
initial context 0, empty queue, no markers. -/
def e0 : WhatNow Nat Nat Nat Nat := ⟨0, 0, ⟨[], none⟩, none, none⟩

/-- Fixture: the handler for step 0 calls `reset(1)` and then `reset(2)`
during its invocation; steps 1 and 2 have ordinary handlers that go to the
terminal step 9 setting the state to 11 resp. 22. -/
def cfgTwoResets : WhatNowConfig Nat Nat Nat Nat where
  steps s :=
    if s = 0 then some (fun _ _ _ _ => ([.reset 1, .reset 2], .ok ⟨9, none, none⟩))
    else if s = 1 then some (fun _ _ _ _ => ([], .ok ⟨9, some 11, none⟩))
    else if s = 2 then some (fun _ _ _ _ => ([], .ok ⟨9, some 22, none⟩))
    else none
  pempty := 0

/-- Fixture: a pure two-hop workflow — step 0 stores its payload as the
state and advances to step 1, which increments the state and advances to the
terminal step 2 (the spec's `start → middle → end` scenario). -/
def cfgCounter : WhatNowConfig Nat Nat Nat Nat where
  steps s :=
    if s = 0 then some (fun _ _ _ p => ([], .ok ⟨1, some p, none⟩))
    else if s = 1 then some (fun st _ _ _ => ([], .ok ⟨2, some (st + 1), none⟩))
    else none
  pempty := 0

/-- Fixture: the handler for step 0 rejects with a non-`Error` value. -/
def cfgThrows : WhatNowConfig Nat Nat Nat Nat where
  steps s :=
    if s = 0 then some (fun _ _ _ _ => ([], .threw (.notError "boom")))
    else none
  pempty := 0

/-- Fixture: the handler for step 0 calls `reset(1)` and returns
`{step: 2, state: 77}`; step 1 goes to the terminal step 9; step 2 would
record state 55 if it ever ran. -/
def cfgResetMid : WhatNowConfig Nat Nat Nat Nat where
  steps s :=
    if s = 0 then some (fun _ _ _ _ => ([.reset 1], .ok ⟨2, some 77, none⟩))
    else if s = 1 then some (fun _ _ _ _ => ([], .ok ⟨9, none, none⟩))
    else if s = 2 then some (fun _ _ _ _ => ([], .ok ⟨9, some 55, none⟩))
    else none
  pempty := 0

/-! ## Basic unfolding lemmas -/

theorem processStep_zero {Step σ γ P : Type} [DecidableEq Step]
    (cfg : WhatNowConfig Step σ γ P) (e : WhatNow Step σ γ P) :
    processStep cfg 0 e = none := rfl

theorem processStep_succ {Step σ γ P : Type} [DecidableEq Step]
    (cfg : WhatNowConfig Step σ γ P) (f : Nat) (e : WhatNow Step σ γ P) :
    processStep cfg (f + 1) e = processStepAux cfg (processStep cfg f) (f + 1) e := rfl

/-! ## Queue claims -/

/-- C8: `clear()` discards all pending items and the current marker with no
notification, and the resulting queue is the very value of a freshly
constructed queue — hence observationally indistinguishable from one:
`current` is `none` and every subsequent operation sequence behaves
identically on both. -/
theorem clear_indistinguishable_from_fresh (T : Type) :
    (∀ q : Queue T, q.clear = Queue.emptyQ T) ∧
    (∀ q : Queue T, qApply q .clear = (Queue.emptyQ T, false)) ∧
    (Queue.emptyQ T).current = none ∧
    (∀ (q : Queue T) (ops : List (QOp T)), qRun q.clear ops = qRun (Queue.emptyQ T) ops) :=
  ⟨fun _ => rfl, fun _ => rfl, rfl, fun _ _ => rfl⟩

theorem qinv_apply {T : Type} (q : Queue T) (op : QOp T) (h : QInv q) :
    QInv (qApply q op).1 := by
  rcases q with ⟨items, cur⟩
  cases op with
  | enq t =>
    cases cur with
    | some c => intro hc; simp [qApply, Queue.enqueue] at hc
    | none =>
      have hi : items = [] := h rfl
      subst hi
      intro hc
      simp [qApply, Queue.enqueue, Queue.next] at hc
  | done =>
    cases items with
    | nil => intro _; simp [qApply, Queue.done, Queue.next]
    | cons x r => intro hc; simp [qApply, Queue.done, Queue.next] at hc
  | clear => intro _; rfl

theorem qinv_run {T : Type} (ops : List (QOp T)) :
    ∀ q : Queue T, QInv q → QInv (qRun q ops).1 := by
  induction ops with
  | nil => intro q h; exact h
  | cons op ops ih =>
    intro q h
    simpa [qRun] using ih (qApply q op).1 (qinv_apply q op h)

/-- C9: in every queue state reachable from a fresh queue by any sequence
of enqueue, done and clear operations, if no item is marked current then
the pending list is empty. -/
theorem pending_only_while_current {T : Type} (ops : List (QOp T))
    (h : (qRun (Queue.emptyQ T) ops).1.current = none) :
    (qRun (Queue.emptyQ T) ops).1.items = [] :=
  qinv_run ops (Queue.emptyQ T) (fun _ => rfl) h

theorem pending_only_while_current_witness :
    (qRun (Queue.emptyQ Nat) [.enq 1, .done]).1.current = none ∧
    (qRun (Queue.emptyQ Nat) [.enq 1, .done]).1.items = [] :=
  ⟨by decide, pending_only_while_current [.enq 1, .done] (by decide)⟩

/-! ## Commit claims -/

/-- C10: when an invocation's result carries a state update, the commit
replaces the engine state with exactly the returned value before `onChange`
runs: the single `change` event — which records what the `state` accessor
returns at the moment the callback runs — carries precisely the newly
committed state. -/
theorem state_committed_before_onchange {Step σ γ P : Type}
    (e : WhatNow Step σ γ P) (r : StepHandlerReturn Step σ γ) (st : σ)
    (hst : r.state = some st) :
    (commitResult e r).1.state = st ∧
    (commitResult e r).2 = [Ev.change (commitResult e r).1.state] ∧
    (commitResult e r).2 = [Ev.change st] := by
  rcases r with ⟨rs, rst, rc⟩
  cases hst
  cases rc <;> simp [commitResult]

theorem state_committed_before_onchange_witness :
    (StepHandlerReturn.mk 1 (some 5) none : StepHandlerReturn Nat Nat Nat).state = some 5 ∧
    ((commitResult e0 ⟨1, some 5, none⟩).1.state = 5 ∧
     (commitResult e0 ⟨1, some 5, none⟩).2 =
       [Ev.change ((commitResult e0 ⟨1, some 5, none⟩).1.state)] ∧
     (commitResult e0 ⟨1, some 5, none⟩).2 = [Ev.change 5]) :=
  ⟨rfl, state_committed_before_onchange e0 ⟨1, some 5, none⟩ 5 rfl⟩

/-! ## Reset claims -/

/-- C1 (counterexample to the claim): with a reset to step 1 already pending
and its chain not yet started, a second `reset(2)` is not a no-op —
`WhatNow.reset` (lines 242-246) has no guard and overwrites
`resettingStep` — so the chain that eventually starts is the second reset's,
not the first's.  Here step 0's handler calls `reset(1)` and then
`reset(2)`: the run starts a chain at step 2 (committing state 22) and
never starts one at step 1. -/
theorem reset_second_call_overwrites_target :
    WhatNow.act cfgTwoResets 5 e0 0 0 =
      some (⟨22, 0, ⟨[], none⟩, none, none⟩,
        [.begin 0, .invoke 0 0 0 0, .stop,
         .begin 2, .invoke 2 0 0 0, .change 22, .stop, .done]) ∧
    Ev.begin 1 ∉ ([.begin 0, .invoke 0 0 0 0, .stop,
         .begin 2, .invoke 2 0 0 0, .change 22, .stop, .done] :
        List (Ev Nat Nat Nat Nat)) :=
  ⟨by decide, by decide⟩

theorem stuck_pubRun {Step σ γ P : Type} [DecidableEq Step]
    (cfg : WhatNowConfig Step σ γ P) (fuel : Nat) :
    ∀ (cs : List (PubCall Step P)) (e : WhatNow Step σ γ P), Stuck e →
      ∃ e', pubRun cfg fuel e cs = some (e', []) ∧
        e'.state = e.state ∧ e'.context = e.context ∧ Stuck e' := by
  intro cs
  induction cs with
  | nil => intro e h; exact ⟨e, rfl, rfl, rfl, h⟩
  | cons c cs ih =>
    intro e h
    cases c with
    | act s p =>
      obtain ⟨e', hrun, hs, hc, hst⟩ := ih e h
      refine ⟨e', ?_, hs, hc, hst⟩
      simp [pubRun, WhatNow.act, actF, h.1, hrun]
    | reset r =>
      obtain ⟨e', hrun, hs, hc, hst⟩ := ih (e.reset r) ⟨rfl, rfl⟩
      exact ⟨e', hrun, hs, hc, hst⟩

/-- C2 (behaviour of the code, contradicting the claim): calling `reset(X)`
on an idle engine with an empty queue does leave the state and context
unchanged, but no fresh chain ever starts at `X`: the engine enters a
permanently stuck state in which every subsequent sequence of `act` and
`reset` calls produces no events at all — in particular no chain start —
because nothing ever consumes the pending reset target (`act` drops its
request while a reset is pending, and only `processStep`, triggered solely
by a queue promotion, clears `resettingStep`). -/
theorem reset_while_idle_starts_no_chain {Step σ γ P : Type} [DecidableEq Step]
    (cfg : WhatNowConfig Step σ γ P) (fuel : Nat) (e : WhatNow Step σ γ P)
    (X : Step) (cs : List (PubCall Step P)) (_hidle : IsIdle e) :
    ∃ e', pubRun cfg fuel (e.reset X) cs = some (e', []) ∧
      e'.state = e.state ∧ e'.context = e.context ∧ Stuck e' :=
  stuck_pubRun cfg fuel cs (e.reset X) ⟨rfl, rfl⟩

theorem reset_while_idle_starts_no_chain_witness :
    IsIdle e0 ∧
    ∃ e', pubRun cfgCounter 5 (e0.reset 3) [.act 0 5, .reset 4, .act 1 0] = some (e', []) ∧
      e'.state = e0.state ∧ e'.context = e0.context ∧ Stuck e' :=
  ⟨⟨rfl, rfl, rfl⟩,
   reset_while_idle_starts_no_chain cfgCounter 5 e0 3 [.act 0 5, .reset 4, .act 1 0]
     ⟨rfl, rfl, rfl⟩⟩

/-! ## Machinery: the commit touches only state and context -/

theorem commitResult_queue {Step σ γ P : Type} (e : WhatNow Step σ γ P)
    (r : StepHandlerReturn Step σ γ) : (commitResult e r).1.queue = e.queue := by
  rcases r with ⟨rs, rst, rc⟩
  cases rst <;> cases rc <;> simp [commitResult]

theorem commitResult_processing {Step σ γ P : Type} (e : WhatNow Step σ γ P)
    (r : StepHandlerReturn Step σ γ) :
    (commitResult e r).1.processingStep = e.processingStep := by
  rcases r with ⟨rs, rst, rc⟩
  cases rst <;> cases rc <;> simp [commitResult]

theorem commitResult_resetting {Step σ γ P : Type} (e : WhatNow Step σ γ P)
    (r : StepHandlerReturn Step σ γ) :
    (commitResult e r).1.resettingStep = e.resettingStep := by
  rcases r with ⟨rs, rst, rc⟩
  cases rst <;> cases rc <;> simp [commitResult]

theorem commitResult_data {Step σ γ P : Type} (e : WhatNow Step σ γ P)
    (r : StepHandlerReturn Step σ γ) : (commitResult e r).2.all isData = true := by
  rcases r with ⟨rs, rst, rc⟩
  cases rst <;> cases rc <;> simp [commitResult, isData]

theorem commitResult_noInvoke {Step σ γ P : Type} (e : WhatNow Step σ γ P)
    (r : StepHandlerReturn Step σ γ) : invokePayloads (commitResult e r).2 = [] := by
  rcases r with ⟨rs, rst, rc⟩
  cases rst <;> cases rc <;> simp [commitResult, invokePayloads]

/-! ## Machinery: in-invocation calls produce no events

While a chain is running, the queue has a current item; an `act` call then
appends without promoting (so without re-entering `processStep`), and once a
`reset` has happened all further `act` calls are dropped.  Hence the calls
issued during an invocation produce no observable events, and their effect
on the engine is limited to the queue and the two markers. -/

theorem applyCallsF_resetting {Step σ γ P : Type}
    (proc : WhatNow Step σ γ P → Option (WhatNow Step σ γ P × List (Ev Step σ γ P)))
    (cs : List (EngineCall Step P)) :
    ∀ e : WhatNow Step σ γ P, e.resettingStep.isSome = true →
      e.processingStep = none → e.queue = ⟨[], none⟩ →
      ∃ e', applyCallsF proc e cs = some (e', []) ∧
        e'.state = e.state ∧ e'.context = e.context ∧
        e'.resettingStep.isSome = true ∧ e'.processingStep = none ∧
        e'.queue = ⟨[], none⟩ := by
  induction cs with
  | nil => intro e h hp hq; exact ⟨e, rfl, rfl, rfl, h, hp, hq⟩
  | cons c cs ih =>
    intro e h hp hq
    cases c with
    | act s p =>
      obtain ⟨e', hrun, h1, h2, h3, h4, h5⟩ := ih e h hp hq
      exact ⟨e', by simp [applyCallsF, actF, h, hrun], h1, h2, h3, h4, h5⟩
    | reset r =>
      obtain ⟨e', hrun, h1, h2, h3, h4, h5⟩ := ih (e.reset r) rfl rfl rfl
      exact ⟨e', hrun, h1, h2, h3, h4, h5⟩

theorem applyCallsF_guarded {Step σ γ P : Type}
    (proc : WhatNow Step σ γ P → Option (WhatNow Step σ γ P × List (Ev Step σ γ P)))
    (cs : List (EngineCall Step P)) :
    ∀ e : WhatNow Step σ γ P, e.queue.current.isSome = true →
      e.resettingStep = none →
      ∃ e', applyCallsF proc e cs = some (e', []) ∧
        e'.state = e.state ∧ e'.context = e.context ∧
        ((e'.resettingStep = none ∧ e'.processingStep = e.processingStep ∧
          e'.queue.current = e.queue.current ∧
          ∃ extra, e'.queue.items = e.queue.items ++ extra) ∨
         (e'.resettingStep.isSome = true ∧ e'.processingStep = none ∧
          e'.queue = ⟨[], none⟩)) := by
  induction cs with
  | nil =>
    intro e hcur hres
    exact ⟨e, rfl, rfl, rfl, Or.inl ⟨hres, rfl, rfl, [], by simp⟩⟩
  | cons c cs ih =>
    intro e hcur hres
    cases c with
    | act s p =>
      obtain ⟨cur0, hcur0⟩ := Option.isSome_iff_exists.mp hcur
      have henq : e.queue.enqueue ⟨s, p⟩ = (⟨e.queue.items ++ [⟨s, p⟩], e.queue.current⟩, false) := by
        simp [Queue.enqueue, hcur0]
      have e1def : actF proc e s p =
          some ({ e with queue := ⟨e.queue.items ++ [⟨s, p⟩], e.queue.current⟩ }, []) := by
        simp [actF, hres, henq]
      obtain ⟨e', hrun, h1, h2, hbr⟩ :=
        ih { e with queue := ⟨e.queue.items ++ [⟨s, p⟩], e.queue.current⟩ } hcur hres
      refine ⟨e', by simp [applyCallsF, e1def, hrun], h1, h2, ?_⟩
      rcases hbr with ⟨b1, b2, b3, extra, b4⟩ | hbr
      · exact Or.inl ⟨b1, b2, b3, ⟨s, p⟩ :: extra, by simpa using b4⟩
      · exact Or.inr hbr
    | reset r =>
      obtain ⟨e', hrun, h1, h2, h3, h4, h5⟩ :=
        applyCallsF_resetting proc cs (e.reset r) rfl rfl rfl
      exact ⟨e', hrun, h1, h2, Or.inr ⟨h3, h4, h5⟩⟩

/-! ## Machinery: a chain emits only data events

While the queue has a current item, the handler loop emits only `invoke` and
`change` events: it neither starts another chain (`begin`), nor releases the
queue (`done`), nor clears the marker (`stop`), nor fires `onError`
(`error`) — those are all emitted by `processStep` around the loop. -/

theorem chainLoopF_data {Step σ γ P : Type} [DecidableEq Step]
    (cfg : WhatNowConfig Step σ γ P)
    (proc : WhatNow Step σ γ P → Option (WhatNow Step σ γ P × List (Ev Step σ γ P))) :
    ∀ (fuel : Nat) (e : WhatNow Step σ γ P) (s : Step) (p : P) out,
      e.queue.current.isSome = true →
      chainLoopF cfg proc fuel e s p = some out →
      out.2.1.all isData = true := by
  intro fuel
  induction fuel with
  | zero => intro e s p out _ h; simp [chainLoopF] at h
  | succ f ih =>
    intro e s p out hcur h
    cases hstep : cfg.steps s with
    | none =>
      simp [chainLoopF, hstep] at h
      simp [← h]
    | some hh =>
      cases hres : e.resettingStep.isSome with
      | true =>
        simp [chainLoopF, hstep, hres] at h
        simp [← h]
      | false =>
        have hres' : e.resettingStep = none := by
          rcases hr : e.resettingStep with _ | r
          · rfl
          · rw [hr] at hres; simp at hres
        obtain ⟨e1, happ, _, _, hbr⟩ :=
          applyCallsF_guarded proc (hh e.state e.context s p).1 e hcur hres'
        rw [chainLoopF] at h
        simp only [hstep, hres, Bool.false_eq_true, if_false, happ] at h
        cases houtc : (hh e.state e.context s p).2 with
        | threw th =>
          rw [houtc] at h
          simp at h
          simp [← h, isData]
        | ok r =>
          rw [houtc] at h
          cases hres1 : e1.resettingStep.isSome with
          | true =>
            simp [hres1] at h
            simp [← h, isData]
          | false =>
            simp only [hres1, Bool.false_eq_true, if_false] at h
            cases hrec : chainLoopF cfg proc f (commitResult e1 r).1 r.step cfg.pempty with
            | none => rw [hrec] at h; simp at h
            | some out3 =>
              rw [hrec] at h
              have hcur1 : e1.queue.current.isSome = true := by
                rcases hbr with ⟨_, _, hc, _⟩ | ⟨hsome, _, _⟩
                · rw [hc]; exact hcur
                · rw [hsome] at hres1; simp at hres1
              have hcur2 : (commitResult e1 r).1.queue.current.isSome = true := by
                rw [commitResult_queue]; exact hcur1
              have hdat3 := ih (commitResult e1 r).1 r.step cfg.pempty out3 hcur2 hrec
              simp at h
              simp [← h, isData, List.all_append, commitResult_data, hdat3]

/-- Auxiliary for the payload claim: a chain continued with the empty
payload passes the empty payload to every invocation it makes. -/
theorem chainLoopF_payloads_pempty {Step σ γ P : Type} [DecidableEq Step]
    (cfg : WhatNowConfig Step σ γ P)
    (proc : WhatNow Step σ γ P → Option (WhatNow Step σ γ P × List (Ev Step σ γ P))) :
    ∀ (fuel : Nat) (e : WhatNow Step σ γ P) (s : Step) out,
      e.queue.current.isSome = true →
      chainLoopF cfg proc fuel e s cfg.pempty = some out →
      ∀ q ∈ invokePayloads out.2.1, q = cfg.pempty := by
  intro fuel
  induction fuel with
  | zero => intro e s out _ h; simp [chainLoopF] at h
  | succ f ih =>
    intro e s out hcur h
    cases hstep : cfg.steps s with
    | none =>
      simp [chainLoopF, hstep] at h
      simp [← h, invokePayloads]
    | some hh =>
      cases hres : e.resettingStep.isSome with
      | true =>
        simp [chainLoopF, hstep, hres] at h
        simp [← h, invokePayloads]
      | false =>
        have hres' : e.resettingStep = none := by
          rcases hr : e.resettingStep with _ | r
          · rfl
          · rw [hr] at hres; simp at hres
        obtain ⟨e1, happ, _, _, hbr⟩ :=
          applyCallsF_guarded proc (hh e.state e.context s cfg.pempty).1 e hcur hres'
        rw [chainLoopF] at h
        simp only [hstep, hres, Bool.false_eq_true, if_false, happ] at h
        cases houtc : (hh e.state e.context s cfg.pempty).2 with
        | threw th =>
          rw [houtc] at h
          simp at h
          simp [← h, invokePayloads]
        | ok r =>
          rw [houtc] at h
          cases hres1 : e1.resettingStep.isSome with
          | true =>
            simp [hres1] at h
            simp [← h, invokePayloads]
          | false =>
            simp only [hres1, Bool.false_eq_true, if_false] at h
            cases hrec : chainLoopF cfg proc f (commitResult e1 r).1 r.step cfg.pempty with
            | none => rw [hrec] at h; simp at h
            | some out3 =>
              rw [hrec] at h
              have hcur1 : e1.queue.current.isSome = true := by
                rcases hbr with ⟨_, _, hc, _⟩ | ⟨hsome, _, _⟩
                · rw [hc]; exact hcur
                · rw [hsome] at hres1; simp at hres1
              have hcur2 : (commitResult e1 r).1.queue.current.isSome = true := by
                rw [commitResult_queue]; exact hcur1
              have hp3 := ih (commitResult e1 r).1 r.step out3 hcur2 hrec
              simp at h
              intro q hq
              rw [← h] at hq
              simp [invokePayloads] at hq
              rcases hq with hq | hq | hq
              · exact hq
              · have hmem : q ∈ invokePayloads (commitResult e1 r).2 :=
                  List.mem_filterMap.mpr hq
                rw [commitResult_noInvoke] at hmem
                exact absurd hmem (List.not_mem_nil q)
              · exact hp3 q (List.mem_filterMap.mpr hq)

/-- C7: within one chain (the handler loop of `processStep`, lines
156-201), only the first handler invocation receives the queued item's
payload; every later invocation in the chain receives the empty payload,
whatever the first payload was — the loop advances with
`currentPayload = {}` after the first iteration. -/
theorem payload_only_first_invocation {Step σ γ P : Type} [DecidableEq Step]
    (cfg : WhatNowConfig Step σ γ P)
    (proc : WhatNow Step σ γ P → Option (WhatNow Step σ γ P × List (Ev Step σ γ P)))
    (fuel : Nat) (e : WhatNow Step σ γ P) (s : Step) (p : P) out
    (hcur : e.queue.current.isSome = true)
    (h : chainLoopF cfg proc fuel e s p = some out) :
    ∀ q ∈ (invokePayloads out.2.1).drop 1, q = cfg.pempty := by
  cases fuel with
  | zero => simp [chainLoopF] at h
  | succ f =>
    cases hstep : cfg.steps s with
    | none =>
      simp [chainLoopF, hstep] at h
      simp [← h, invokePayloads]
    | some hh =>
      cases hres : e.resettingStep.isSome with
      | true =>
        simp [chainLoopF, hstep, hres] at h
        simp [← h, invokePayloads]
      | false =>
        have hres' : e.resettingStep = none := by
          rcases hr : e.resettingStep with _ | r
          · rfl
          · rw [hr] at hres; simp at hres
        obtain ⟨e1, happ, _, _, hbr⟩ :=
          applyCallsF_guarded proc (hh e.state e.context s p).1 e hcur hres'
        rw [chainLoopF] at h
        simp only [hstep, hres, Bool.false_eq_true, if_false, happ] at h
        cases houtc : (hh e.state e.context s p).2 with
        | threw th =>
          rw [houtc] at h
          simp at h
          simp [← h, invokePayloads]
        | ok r =>
          rw [houtc] at h
          cases hres1 : e1.resettingStep.isSome with
          | true =>
            simp [hres1] at h
            simp [← h, invokePayloads]
          | false =>
            simp only [hres1, Bool.false_eq_true, if_false] at h
            cases hrec : chainLoopF cfg proc f (commitResult e1 r).1 r.step cfg.pempty with
            | none => rw [hrec] at h; simp at h
            | some out3 =>
              rw [hrec] at h
              have hcur1 : e1.queue.current.isSome = true := by
                rcases hbr with ⟨_, _, hc, _⟩ | ⟨hsome, _, _⟩
                · rw [hc]; exact hcur
                · rw [hsome] at hres1; simp at hres1
              have hcur2 : (commitResult e1 r).1.queue.current.isSome = true := by
                rw [commitResult_queue]; exact hcur1
              have hp3 := chainLoopF_payloads_pempty cfg proc f (commitResult e1 r).1
                r.step out3 hcur2 hrec
              simp at h
              intro q hq
              rw [← h] at hq
              simp [invokePayloads] at hq
              rcases hq with hq | hq
              · have hmem : q ∈ invokePayloads (commitResult e1 r).2 :=
                  List.mem_filterMap.mpr hq
                rw [commitResult_noInvoke] at hmem
                exact absurd hmem (List.not_mem_nil q)
              · exact hp3 q (List.mem_filterMap.mpr hq)

theorem payload_only_first_invocation_witness :
    e0.queue.current.isSome = false ∧
    ({ e0 with queue := ⟨[], some ⟨0, 42⟩⟩ } : WhatNow Nat Nat Nat Nat).queue.current.isSome
      = true ∧
    ∃ out, chainLoopF cfgCounter (processStep cfgCounter 3) 3
        { e0 with queue := ⟨[], some ⟨0, 42⟩⟩ } 0 42 = some out ∧
      ∀ q ∈ (invokePayloads out.2.1).drop 1, q = cfgCounter.pempty := by
  refine ⟨rfl, rfl, ?_⟩
  refine ⟨?_, ?_, ?_⟩
  · exact (chainLoopF cfgCounter (processStep cfgCounter 3) 3
      { e0 with queue := ⟨[], some ⟨0, 42⟩⟩ } 0 42).get (by decide)
  · exact (Option.some_get (by decide)).symm
  · exact payload_only_first_invocation cfgCounter (processStep cfgCounter 3) 3
      { e0 with queue := ⟨[], some ⟨0, 42⟩⟩ } 0 42 _ rfl (Option.some_get (by decide)).symm

/-- C6: `onChange` fires exactly once per committed handler invocation whose
result carried a state update, and not at all for invocations whose result
carried only a context update or no update.  First conjunct: the commit
(lines 187-196) emits exactly one `change` event when `result.state` is
present and none otherwise.  Second conjunct: a committed invocation (one
whose handler resolved, made no calls, and was not overtaken by a reset)
contributes to the chain trace exactly its `invoke` event followed by the
commit's events before the loop advances — so firings are counted per
invocation, not per chain. -/
theorem onchange_once_per_state_update {Step σ γ P : Type} [DecidableEq Step] :
    (∀ (e : WhatNow Step σ γ P) (r : StepHandlerReturn Step σ γ),
      countChange (commitResult e r).2 = if r.state.isSome then 1 else 0) ∧
    (∀ (cfg : WhatNowConfig Step σ γ P)
        (proc : WhatNow Step σ γ P → Option (WhatNow Step σ γ P × List (Ev Step σ γ P)))
        (fuel : Nat) (e : WhatNow Step σ γ P) (m : Step) (p : P)
        (h : StepHandler Step σ γ P) (r : StepHandlerReturn Step σ γ),
      cfg.steps m = some h →
      h e.state e.context m p = ([], .ok r) →
      e.resettingStep = none →
      chainLoopF cfg proc (fuel + 1) e m p =
        (chainLoopF cfg proc fuel (commitResult e r).1 r.step cfg.pempty).map
          (fun y => (y.1,
            Ev.invoke m e.state e.context p :: ((commitResult e r).2 ++ y.2.1),
            y.2.2))) := by
  constructor
  · intro e r
    rcases r with ⟨rs, rst, rc⟩
    cases rst <;> cases rc <;> simp [commitResult, countChange]
  · intro cfg proc fuel e m p h r hm hcall hres
    rw [chainLoopF]
    simp only [hm, hres, Option.isSome_none, Bool.false_eq_true, if_false, hcall,
      applyCallsF]
    cases hrec : chainLoopF cfg proc fuel (commitResult e r).1 r.step cfg.pempty <;>
      simp [hrec]

theorem onchange_once_per_state_update_witness :
    countChange (commitResult e0 ⟨1, some 5, none⟩).2 =
      (if (some (5 : Nat)).isSome then 1 else 0) ∧
    chainLoopF cfgCounter (processStep cfgCounter 3) 3
        { e0 with queue := ⟨[], some ⟨0, 5⟩⟩ } 0 5 =
      (chainLoopF cfgCounter (processStep cfgCounter 3) 2
          (commitResult { e0 with queue := ⟨[], some ⟨0, 5⟩⟩ } ⟨1, some 5, none⟩).1 1
          cfgCounter.pempty).map
        (fun y => (y.1,
          Ev.invoke 0 0 0 5 ::
            ((commitResult { e0 with queue := ⟨[], some ⟨0, 5⟩⟩ } ⟨1, some 5, none⟩).2 ++
              y.2.1),
          y.2.2)) :=
  ⟨onchange_once_per_state_update.1 e0 ⟨1, some 5, none⟩,
   onchange_once_per_state_update.2 cfgCounter (processStep cfgCounter 3) 2
     { e0 with queue := ⟨[], some ⟨0, 5⟩⟩ } 0 5 _ ⟨1, some 5, none⟩ rfl rfl rfl⟩

/-- C5: if during a handler invocation (here of step `m`) a `reset(R)` is
requested, the engine commits neither the returned state nor the returned
context, does not advance to the returned next step, and discards the queued
continuation: after the `[begin m, invoke m, stop]` prefix of the aborted
chain, the whole remaining run is exactly `processStep` on the engine a
fresh chain at `R` starts from — same state and context as before the
invocation (whatever `r` carried), an empty pending list, and the re-enqueued
reset target `⟨R, {}⟩` as the only current item. -/
theorem reset_during_invocation_discards_result {Step σ γ P : Type} [DecidableEq Step]
    (cfg : WhatNowConfig Step σ γ P) (h : StepHandler Step σ γ P) (m R : Step)
    (r : StepHandlerReturn Step σ γ) (e : WhatNow Step σ γ P) (p : P) (fuel : Nat)
    (hm : cfg.steps m = some h)
    (hcall : h e.state e.context m p = ([EngineCall.reset R], .ok r))
    (hcur : e.queue.current = some ⟨m, p⟩)
    (hproc : ¬e.processingStep = some m)
    (hres : e.resettingStep = none) :
    processStep cfg (fuel + 1) e =
      (processStep cfg fuel ⟨e.state, e.context, ⟨[], some ⟨R, cfg.pempty⟩⟩, none, none⟩).map
        (fun y => (y.1, [Ev.begin m, Ev.invoke m e.state e.context p, Ev.stop] ++ y.2)) := by
  rw [processStep_succ]
  unfold processStepAux processTry
  rw [hcur, hres]
  simp only [hproc, if_false]
  rw [chainLoopF]
  simp only [hm, hres, Option.isSome_none, Bool.false_eq_true, if_false, hcall,
    applyCallsF, WhatNow.reset, Queue.clear]
  simp only [actF, Queue.enqueue, Queue.next]
  cases hx : processStep cfg fuel
      ⟨e.state, e.context, ⟨[], some ⟨R, cfg.pempty⟩⟩, none, none⟩ <;>
    simp [hx]

theorem reset_during_invocation_discards_result_witness :
    cfgResetMid.steps 0 = some (fun _ _ _ _ => ([.reset 1], .ok ⟨2, some 77, none⟩)) ∧
    ({ e0 with queue := ⟨[], some ⟨0, 9⟩⟩ } : WhatNow Nat Nat Nat Nat).queue.current
      = some ⟨0, 9⟩ ∧
    processStep cfgResetMid 4 { e0 with queue := ⟨[], some ⟨0, 9⟩⟩ } =
      (processStep cfgResetMid 3 ⟨0, 0, ⟨[], some ⟨1, 0⟩⟩, none, none⟩).map
        (fun y => (y.1, [Ev.begin 0, Ev.invoke 0 0 0 9, Ev.stop] ++ y.2)) :=
  ⟨rfl, rfl,
   reset_during_invocation_discards_result cfgResetMid _ 0 1 ⟨2, some 77, none⟩
     { e0 with queue := ⟨[], some ⟨0, 9⟩⟩ } 9 3 rfl rfl rfl (by decide) rfl⟩

/-! ## Machinery: failures halt the run -/

theorem noErr_of_data {Step σ γ P : Type} {t : List (Ev Step σ γ P)}
    (h : t.all isData = true) (msg : String) : Ev.error msg ∉ t := by
  intro hmem
  have := List.all_eq_true.mp h _ hmem
  simp [isData] at this

theorem noErrButLast_of_noErr {Step σ γ P : Type} {t : List (Ev Step σ γ P)}
    (h : ∀ msg, Ev.error msg ∉ t) : NoErrButLast t :=
  fun msg hmem => h msg ((List.dropLast_sublist t).subset hmem)

theorem noErrButLast_append {Step σ γ P : Type} {a b : List (Ev Step σ γ P)}
    (ha : ∀ msg, Ev.error msg ∉ a) (hb : NoErrButLast b) : NoErrButLast (a ++ b) := by
  intro msg hmem
  by_cases hbnil : b = []
  · subst hbnil
    rw [List.append_nil] at hmem
    exact ha msg ((List.dropLast_sublist a).subset hmem)
  · rw [List.dropLast_append_of_ne_nil a hbnil] at hmem
    rcases List.mem_append.mp hmem with h1 | h2
    · exact ha msg h1
    · exact hb msg h2

theorem noErrButLast_concat {Step σ γ P : Type} {a : List (Ev Step σ γ P)}
    (ha : ∀ msg, Ev.error msg ∉ a) (x : Ev Step σ γ P) : NoErrButLast (a ++ [x]) := by
  intro msg
  rw [List.dropLast_concat]
  exact ha msg

theorem not_endsErr_of_noErr {Step σ γ P : Type} {t : List (Ev Step σ γ P)}
    (h : ∀ msg, Ev.error msg ∉ t) : ¬EndsErr t := by
  rintro ⟨msg, hl⟩
  exact h msg (List.mem_of_getLast?_eq_some hl)

theorem endsErr_append {Step σ γ P : Type} {a b : List (Ev Step σ γ P)}
    (hb : b ≠ []) (h : EndsErr (a ++ b)) : EndsErr b := by
  rcases h with ⟨msg, hl⟩
  rw [List.getLast?_append_of_ne_nil a hb] at hl
  exact ⟨msg, hl⟩

/-- The error path of one whole `processStep` run: errors are delivered only
as the final event of the run, and a run ending in an error has cleared the
processing marker (the catch clause, lines 219-224). -/
theorem processStep_noErrButLast {Step σ γ P : Type} [DecidableEq Step]
    (cfg : WhatNowConfig Step σ γ P) :
    ∀ (fuel : Nat) (e : WhatNow Step σ γ P) out,
      processStep cfg fuel e = some out →
      NoErrButLast out.2 ∧ (EndsErr out.2 → out.1.processingStep = none) := by
  intro fuel
  induction fuel with
  | zero => intro e out h; simp [processStep_zero] at h
  | succ f ih =>
    have htry : ∀ (e : WhatNow Step σ γ P) cur out,
        e.queue.current = some cur →
        processTry cfg (processStep cfg f) (f + 1) e cur = some out →
        NoErrButLast out.2 ∧ (EndsErr out.2 → out.1.processingStep = none) := by
      intro e cur out hcur h
      simp only [processTry] at h
      split at h
      case _ hcl => exact absurd h (by simp)
      case _ e2 t hcl =>
        -- earlyReturn
        have hdata : t.all isData = true :=
          chainLoopF_data cfg (processStep cfg f) (f + 1) _ cur.step cur.payload _
            (by simp [hcur]) hcl
        have hnoerr : ∀ msg, Ev.error msg ∉ t := noErr_of_data hdata
        have hnoerrB : ∀ msg, Ev.error msg ∉ Ev.begin cur.step :: t := by
          intro msg hmem
          rcases List.mem_cons.mp hmem with hh | hh
          · cases hh
          · exact hnoerr msg hh
        simp at h
        rw [← h]
        exact ⟨noErrButLast_of_noErr hnoerrB,
          fun hend => absurd hend (not_endsErr_of_noErr hnoerrB)⟩
      case _ e2 t msg hcl =>
        -- failed
        have hdata : t.all isData = true :=
          chainLoopF_data cfg (processStep cfg f) (f + 1) _ cur.step cur.payload _
            (by simp [hcur]) hcl
        have hnoerr : ∀ msg, Ev.error msg ∉ t := noErr_of_data hdata
        have hnoerrB : ∀ msg, Ev.error msg ∉ Ev.begin cur.step :: t := by
          intro msg hmem
          rcases List.mem_cons.mp hmem with hh | hh
          · cases hh
          · exact hnoerr msg hh
        injection h with h
        subst h
        constructor
        · have hform : Ev.begin cur.step :: t ++ [Ev.error msg] =
              (Ev.begin cur.step :: t) ++ [Ev.error msg] := by simp
          rw [hform]
          exact noErrButLast_concat hnoerrB _
        · intro _; rfl
      case _ e2 t hcl =>
        -- finished
        have hdata : t.all isData = true :=
          chainLoopF_data cfg (processStep cfg f) (f + 1) _ cur.step cur.payload _
            (by simp [hcur]) hcl
        have hnoerr : ∀ msg, Ev.error msg ∉ t := noErr_of_data hdata
        have hnoerrE : ∀ msg, Ev.error msg ∉ Ev.begin cur.step :: t ++ [Ev.stop] := by
          intro msg hmem
          rcases List.mem_cons.mp hmem with hh | hh
          · cases hh
          · rcases List.mem_append.mp hh with h1 | h1
            · exact hnoerr msg h1
            · simp at h1
        split at h
        · -- a reset became pending during the chain: re-enqueue its target
          simp only [actF] at h
          rw [if_neg (by simp)] at h
          split at h
          case _ heq => exact absurd h (by simp)
          case _ e5 t5 heq =>
            injection h with h
            split at heq
            · -- promoted: the fresh chain at the reset target runs
              obtain ⟨h5a, h5b⟩ := ih _ _ heq
              subst h
              have hform : Ev.begin cur.step :: t ++ [Ev.stop] ++ t5 =
                  (Ev.begin cur.step :: t ++ [Ev.stop]) ++ t5 := by simp
              constructor
              · rw [hform]
                exact noErrButLast_append hnoerrE h5a
              · intro hend
                rw [hform] at hend
                by_cases h5nil : t5 = []
                · rw [h5nil, List.append_nil] at hend
                  exact absurd hend (not_endsErr_of_noErr hnoerrE)
                · exact h5b (endsErr_append h5nil hend)
            · -- not promoted: run ends with the stop event
              simp only [Option.some.injEq, Prod.mk.injEq] at heq
              obtain ⟨he5, ht5⟩ := heq
              subst h
              subst he5
              rw [← ht5]
              constructor
              · have hform : Ev.begin cur.step :: t ++ [Ev.stop] ++ ([] : List (Ev Step σ γ P)) =
                    Ev.begin cur.step :: t ++ [Ev.stop] := by simp
                rw [hform]
                exact noErrButLast_of_noErr hnoerrE
              · intro _
                rfl
        · -- no reset pending: release the queue
          have hne : ∀ msg, Ev.error msg ∉
              (Ev.begin cur.step :: t ++ [Ev.stop]) ++ [Ev.done] := by
            intro msg hmem
            rcases List.mem_append.mp hmem with h1 | h1
            · exact hnoerrE msg h1
            · simp at h1
          split at h
          · -- the release promoted a pending item: the next chain runs
            split at h
            case _ heq => exact absurd h (by simp)
            case _ e5 t5 heq =>
              obtain ⟨h5a, h5b⟩ := ih _ _ heq
              injection h with h
              subst h
              have hform : Ev.begin cur.step :: t ++ [Ev.stop] ++ Ev.done :: t5 =
                  ((Ev.begin cur.step :: t ++ [Ev.stop]) ++ [Ev.done]) ++ t5 := by
                simp
              constructor
              · rw [hform]
                exact noErrButLast_append hne h5a
              · intro hend
                rw [hform] at hend
                by_cases h5nil : t5 = []
                · rw [h5nil, List.append_nil] at hend
                  exact absurd hend (not_endsErr_of_noErr hne)
                · exact h5b (endsErr_append h5nil hend)
          · -- nothing pending: run ends with the done event
            injection h with h
            subst h
            have hform : Ev.begin cur.step :: t ++ [Ev.stop] ++ [Ev.done] =
                (Ev.begin cur.step :: t ++ [Ev.stop]) ++ [Ev.done] := by simp
            constructor
            · rw [hform]
              exact noErrButLast_of_noErr hne
            · intro _
              rfl
    intro e out h
    rw [processStep_succ] at h
    unfold processStepAux at h
    split at h
    case _ hcur =>
      injection h with h
      subst h
      exact ⟨fun msg hmem => by simp at hmem, fun hend => by
        rcases hend with ⟨msg, hl⟩; simp at hl⟩
    case _ cur hcur =>
      split at h
      · -- reentrancy guard
        injection h with h
        subst h
        exact ⟨fun msg hmem => by simp at hmem, fun hend => by
          rcases hend with ⟨msg, hl⟩; simp at hl⟩
      · split at h
        case _ r hres =>
          split at h
          · exact htry { e with resettingStep := none } cur out hcur h
          · injection h with h
            subst h
            exact ⟨fun msg hmem => by simp at hmem, fun hend => by
              rcases hend with ⟨msg, hl⟩; simp at hl⟩
        case _ hres =>
          exact htry e cur out hcur h

/-- The failure path in closed form: a chain whose (first) handler
invocation rejects emits the chain start, the invocation, and exactly one
`onError` firing with the normalized error, clears the processing marker,
and leaves the engine otherwise untouched — in particular the queue still
holds the failed item as current, since `queue.done()` is never called. -/
theorem processStep_failure_eq {Step σ γ P : Type} [DecidableEq Step]
    (cfg : WhatNowConfig Step σ γ P) (h : StepHandler Step σ γ P) (m : Step)
    (th : Thrown) (e : WhatNow Step σ γ P) (p : P) (fuel : Nat)
    (hm : cfg.steps m = some h)
    (hcall : h e.state e.context m p = ([], .threw th))
    (hcur : e.queue.current = some ⟨m, p⟩)
    (hproc : ¬e.processingStep = some m)
    (hres : e.resettingStep = none) :
    processStep cfg (fuel + 1) e =
      some ({ e with processingStep := none },
        [Ev.begin m, Ev.invoke m e.state e.context p,
         Ev.error (normalizeThrown th)]) := by
  rw [processStep_succ]
  unfold processStepAux processTry
  rw [hcur, hres]
  simp only [hproc, if_false]
  rw [chainLoopF]
  simp only [hm, hres, Option.isSome_none, Bool.false_eq_true, if_false, hcall,
    applyCallsF]
  rfl

theorem acts_behind_unreleased_current {Step σ γ P : Type} [DecidableEq Step]
    (cfg : WhatNowConfig Step σ γ P) (fuel : Nat) :
    ∀ (cs : List (PubCall Step P)) (e : WhatNow Step σ γ P) (c : StepAction Step P),
      e.processingStep = none → e.resettingStep = none →
      e.queue.current = some c → ActsOnly cs →
      ∃ e', pubRun cfg fuel e cs = some (e', []) ∧
        e'.queue.current = some c ∧
        e'.queue.items = e.queue.items ++ itemsOf cs ∧
        e'.processingStep = none ∧ e'.resettingStep = none ∧
        e'.state = e.state ∧ e'.context = e.context := by
  intro cs
  induction cs with
  | nil =>
    intro e c hp hr hc _
    exact ⟨e, rfl, hc, by simp [itemsOf], hp, hr, rfl, rfl⟩
  | cons c0 cs ih =>
    intro e c hp hr hc hacts
    obtain ⟨s, p, rfl⟩ := hacts c0 (List.mem_cons_self c0 cs)
    have henq : e.queue.enqueue ⟨s, p⟩ =
        (⟨e.queue.items ++ [⟨s, p⟩], e.queue.current⟩, false) := by
      simp [Queue.enqueue, hc]
    obtain ⟨e', hrun, h1, h2, h3, h4, h5, h6⟩ :=
      ih { e with queue := ⟨e.queue.items ++ [⟨s, p⟩], e.queue.current⟩ } c hp hr hc
        (fun x hx => hacts x (List.mem_cons_of_mem _ hx))
    rw [hr] at hrun
    refine ⟨e', ?_, h1, ?_, h3, h4, h5, h6⟩
    · simp [pubRun, WhatNow.act, actF, hr, henq, hrun]
    · rw [h2]
      simp [itemsOf]

/-- C3: when a handler invocation rejects, the engine delivers exactly one
normalized error to `onError`, invokes no further handler in the run,
clears the processing marker, and never calls `queue.done()` — the failed
item stays current.  First conjunct: the failing chain in closed form (one
`error` event carrying the normalized thrown value as the final event, the
processing marker cleared, queue untouched).  Second conjunct: in every run,
an `error` event can only be the final event, and a run ending in one has a
cleared processing marker.  Third conjunct: from the post-failure state
(idle markers, stuck current item), every subsequent sequence of `act`
calls enqueues its items behind the stuck current item and produces no
events at all — no chain for them ever begins. -/
theorem handler_failure_halts_chain {Step σ γ P : Type} [DecidableEq Step] :
    (∀ (cfg : WhatNowConfig Step σ γ P) (h : StepHandler Step σ γ P) (m : Step)
        (th : Thrown) (e : WhatNow Step σ γ P) (p : P) (fuel : Nat),
      cfg.steps m = some h →
      h e.state e.context m p = ([], .threw th) →
      e.queue.current = some ⟨m, p⟩ →
      ¬e.processingStep = some m →
      e.resettingStep = none →
      processStep cfg (fuel + 1) e =
        some ({ e with processingStep := none },
          [Ev.begin m, Ev.invoke m e.state e.context p,
           Ev.error (normalizeThrown th)])) ∧
    (∀ (cfg : WhatNowConfig Step σ γ P) (fuel : Nat) (e : WhatNow Step σ γ P) out,
      processStep cfg fuel e = some out →
      NoErrButLast out.2 ∧ (EndsErr out.2 → out.1.processingStep = none)) ∧
    (∀ (cfg : WhatNowConfig Step σ γ P) (fuel : Nat) (cs : List (PubCall Step P))
        (e : WhatNow Step σ γ P) (c : StepAction Step P),
      e.processingStep = none → e.resettingStep = none →
      e.queue.current = some c → ActsOnly cs →
      ∃ e', pubRun cfg fuel e cs = some (e', []) ∧
        e'.queue.current = some c ∧
        e'.queue.items = e.queue.items ++ itemsOf cs ∧
        e'.processingStep = none ∧ e'.resettingStep = none ∧
        e'.state = e.state ∧ e'.context = e.context) :=
  ⟨processStep_failure_eq, fun cfg => processStep_noErrButLast cfg,
   fun cfg fuel => acts_behind_unreleased_current cfg fuel⟩

theorem handler_failure_halts_chain_witness :
    cfgThrows.steps 0 = some (fun _ _ _ _ => ([], .threw (.notError "boom"))) ∧
    processStep cfgThrows 3 { e0 with queue := ⟨[], some ⟨0, 0⟩⟩ } =
      some ({ e0 with queue := ⟨[], some ⟨0, 0⟩⟩, processingStep := none },
        [Ev.begin 0, Ev.invoke 0 0 0 0,
         Ev.error (normalizeThrown (.notError "boom"))]) ∧
    (∃ e', pubRun cfgThrows 3
        { e0 with queue := ⟨[], some ⟨0, 0⟩⟩, processingStep := none }
        [.act 1 7] = some (e', []) ∧
      e'.queue.current = some ⟨0, 0⟩ ∧
      e'.queue.items =
        ({ e0 with queue := ⟨[], some ⟨0, 0⟩⟩, processingStep := none } :
          WhatNow Nat Nat Nat Nat).queue.items ++ itemsOf [.act 1 7] ∧
      e'.processingStep = none ∧ e'.resettingStep = none ∧
      e'.state = 0 ∧ e'.context = 0) :=
  ⟨rfl,
   handler_failure_halts_chain.1 cfgThrows _ 0 (.notError "boom")
     { e0 with queue := ⟨[], some ⟨0, 0⟩⟩ } 0 2 rfl rfl rfl (by decide) rfl,
   handler_failure_halts_chain.2.2 cfgThrows 3 [.act 1 7]
     { e0 with queue := ⟨[], some ⟨0, 0⟩⟩, processingStep := none } ⟨0, 0⟩
     rfl rfl rfl (by
       intro c hcmem
       simp at hcmem
       subst hcmem
       exact ⟨1, 7, rfl⟩)⟩

/-! ## Machinery: chains of call-free handlers -/

theorem chainLoopF_pure {Step σ γ P : Type} [DecidableEq Step]
    (cfg : WhatNowConfig Step σ γ P)
    (proc : WhatNow Step σ γ P → Option (WhatNow Step σ γ P × List (Ev Step σ γ P)))
    (hpure : PureCfg cfg) :
    ∀ (fuel : Nat) (e : WhatNow Step σ γ P) (s : Step) (p : P) out,
      e.resettingStep = none →
      chainLoopF cfg proc fuel e s p = some out →
      out.2.2 = ChainExit.finished ∧ out.1.queue = e.queue ∧
      out.1.resettingStep = none ∧ out.1.processingStep = e.processingStep ∧
      out.2.1.all isData = true := by
  intro fuel
  induction fuel with
  | zero => intro e s p out _ h; simp [chainLoopF] at h
  | succ f ih =>
    intro e s p out hres h
    cases hstep : cfg.steps s with
    | none =>
      simp [chainLoopF, hstep] at h
      simp [← h, hres]
    | some hh =>
      obtain ⟨hcalls, r, hok⟩ := hpure s hh hstep e.state e.context p
      rw [chainLoopF] at h
      simp only [hstep, hres, Option.isSome_none, Bool.false_eq_true, if_false,
        hcalls, hok, applyCallsF] at h
      cases hrec : chainLoopF cfg proc f (commitResult e r).1 r.step cfg.pempty with
      | none => rw [hrec] at h; simp at h
      | some out3 =>
        rw [hrec] at h
        simp at h
        obtain ⟨x1, x2, x3, x4, x5⟩ :=
          ih (commitResult e r).1 r.step cfg.pempty out3
            (by rw [commitResult_resetting]; exact hres) hrec
        rw [← h]
        refine ⟨x1, ?_, x3, ?_, ?_⟩
        · rw [x2, commitResult_queue]
        · rw [x4, commitResult_processing]
        · simp [isData, List.all_append, commitResult_data e r, x5]

/-- One `act` from a fully idle engine, with call-free always-resolving
handlers, runs exactly one complete chain and returns the engine to idle:
the trace is the chain start, data events only, the marker clearing and the
queue release. -/
theorem act_pure_from_idle {Step σ γ P : Type} [DecidableEq Step]
    (cfg : WhatNowConfig Step σ γ P) (hpure : PureCfg cfg)
    (fuel : Nat) (e : WhatNow Step σ γ P) (s : Step) (p : P) out
    (hidle : IsIdle e)
    (h : WhatNow.act cfg fuel e s p = some out) :
    IsIdle out.1 ∧ ∃ body, out.2 = Ev.begin s :: body ++ [Ev.stop, Ev.done] ∧
      body.all isData = true := by
  obtain ⟨hp, hr, hq⟩ := hidle
  have hact2 : WhatNow.act cfg fuel e s p =
      processStep cfg fuel { e with queue := ⟨[], some ⟨s, p⟩⟩ } := by
    unfold WhatNow.act actF
    rw [hr, hq]
    rfl
  rw [hact2] at h
  cases fuel with
  | zero => rw [processStep_zero] at h; exact absurd h (by simp)
  | succ f =>
    rw [processStep_succ] at h
    unfold processStepAux at h
    split at h
    case _ hcur => simp at hcur
    case _ cur hcur =>
      rw [show ({ e with queue := ⟨[], some ⟨s, p⟩⟩ } :
          WhatNow Step σ γ P).queue.current = some ⟨s, p⟩ from rfl] at hcur
      injection hcur with hcur
      subst hcur
      split at h
      case _ hpc =>
        rw [show ({ e with queue := ⟨[], some (⟨s, p⟩ : StepAction Step P)⟩ } :
            WhatNow Step σ γ P).processingStep = e.processingStep from rfl, hp] at hpc
        simp at hpc
      case _ hpc =>
        split at h
        case _ r hrs =>
          rw [show ({ e with queue := ⟨[], some (⟨s, p⟩ : StepAction Step P)⟩ } :
              WhatNow Step σ γ P).resettingStep = e.resettingStep from rfl, hr] at hrs
          simp at hrs
        case _ hrs =>
          simp only [processTry] at h
          split at h
          case _ hcl => exact absurd h (by simp)
          case _ e2 t hcl =>
            obtain ⟨x1, _⟩ :=
              chainLoopF_pure cfg (processStep cfg f) hpure (f + 1) _ _ _ _ (by exact hr) hcl
            simp at x1
          case _ e2 t msg hcl =>
            obtain ⟨x1, _⟩ :=
              chainLoopF_pure cfg (processStep cfg f) hpure (f + 1) _ _ _ _ (by exact hr) hcl
            simp at x1
          case _ e2 t hcl =>
            obtain ⟨_, hq2, hr2, _, hdat⟩ :=
              chainLoopF_pure cfg (processStep cfg f) hpure (f + 1) _ _ _ _ (by exact hr) hcl
            have hq2' : e2.queue = ⟨[], some ⟨s, p⟩⟩ := by rw [hq2]
            split at h
            case _ r hrs2 =>
              rw [hr2] at hrs2
              simp at hrs2
            case _ hrs2 =>
              split at h
              case _ hs2 =>
                rw [hq2'] at hs2
                simp [Queue.done, Queue.next] at hs2
              case _ hs2 =>
                injection h with h
                subst h
                refine ⟨⟨rfl, hr2, ?_⟩, t, ?_, hdat⟩
                · show (e2.queue.done).1 = ⟨[], none⟩
                  rw [hq2']
                  rfl
                · simp

theorem pubRun_pure_idle {Step σ γ P : Type} [DecidableEq Step]
    (cfg : WhatNowConfig Step σ γ P) (fuel : Nat) (hpure : PureCfg cfg) :
    ∀ (ss : List (Step × P)) (e : WhatNow Step σ γ P) out,
      IsIdle e →
      pubRun cfg fuel e (ss.map fun a => PubCall.act a.1 a.2) = some out →
      IsIdle out.1 ∧ ChainSegs out.2 (ss.map Prod.fst) := by
  intro ss
  induction ss with
  | nil =>
    intro e out hidle h
    simp only [List.map_nil, pubRun] at h
    injection h with h
    subst h
    exact ⟨hidle, rfl⟩
  | cons a ss ih =>
    intro e out hidle h
    simp only [List.map_cons, pubRun] at h
    cases hact : WhatNow.act cfg fuel e a.1 a.2 with
    | none => rw [hact] at h; exact absurd h (by simp)
    | some out1 =>
      rw [hact] at h
      obtain ⟨hidle1, body, hbody, hdat⟩ :=
        act_pure_from_idle cfg hpure fuel e a.1 a.2 out1 hidle hact
      obtain ⟨e1, t1⟩ := out1
      dsimp only at h
      cases hrest : pubRun cfg fuel e1 (ss.map fun a => PubCall.act a.1 a.2) with
      | none => rw [hrest] at h; simp at h
      | some out2 =>
        rw [hrest] at h
        obtain ⟨e2, t2⟩ := out2
        simp at h
        obtain ⟨hidle2, hsegs⟩ := ih e1 (e2, t2) hidle1 hrest
        rw [← h]
        refine ⟨hidle2, body, t2, ?_, hdat, hsegs⟩
        rw [show t1 = Ev.begin a.1 :: body ++ [Ev.stop, Ev.done] from hbody]

/-- C4: chain serialization and ordering.  First conjunct: while the queue
holds a current item — that is, for the whole duration of a running chain —
the handler loop emits no `begin` event: no other chain can start while one
is in flight, so chains are never interleaved, and items enqueued meanwhile
(by handlers or external callers) begin only after the running chain
resolves and releases the queue.  Second conjunct: for any sequence of `act`
calls issued to an idle engine with call-free always-resolving handlers, the
observable trace is exactly one complete chain segment per call, in call
order, each segment running to its terminal step (`stop` then the queue
release `done`) before the next begins, with the engine idle again at the
end. -/
theorem chains_execute_in_call_order {Step σ γ P : Type} [DecidableEq Step] :
    (∀ (cfg : WhatNowConfig Step σ γ P)
        (proc : WhatNow Step σ γ P → Option (WhatNow Step σ γ P × List (Ev Step σ γ P)))
        (fuel : Nat) (e : WhatNow Step σ γ P) (s : Step) (p : P) out,
      e.queue.current.isSome = true →
      chainLoopF cfg proc fuel e s p = some out →
      out.2.1.all (fun ev => !isBeginEv ev) = true) ∧
    (∀ (cfg : WhatNowConfig Step σ γ P) (fuel : Nat) (ss : List (Step × P))
        (e : WhatNow Step σ γ P) out,
      PureCfg cfg → IsIdle e →
      pubRun cfg fuel e (ss.map fun a => PubCall.act a.1 a.2) = some out →
      IsIdle out.1 ∧ ChainSegs out.2 (ss.map Prod.fst)) := by
  constructor
  · intro cfg proc fuel e s p out hcur h
    have hdat := chainLoopF_data cfg proc fuel e s p out hcur h
    rw [List.all_eq_true] at hdat ⊢
    intro x hx
    have hd := hdat x hx
    cases x <;> simp_all [isData, isBeginEv]
  · intro cfg fuel ss e out hpure hidle h
    exact pubRun_pure_idle cfg fuel hpure ss e out hidle h

theorem cfgCounter_pure : PureCfg cfgCounter := by
  intro s h hm st cx p
  by_cases h0 : s = 0
  · subst h0
    rw [show cfgCounter.steps 0 =
        some (fun _ _ _ p => ([], .ok ⟨1, some p, none⟩)) from rfl] at hm
    cases hm
    exact ⟨rfl, ⟨1, some p, none⟩, rfl⟩
  · by_cases h1 : s = 1
    · subst h1
      rw [show cfgCounter.steps 1 =
          some (fun st _ _ _ => ([], .ok ⟨2, some (st + 1), none⟩)) from rfl] at hm
      cases hm
      exact ⟨rfl, ⟨2, some (st + 1), none⟩, rfl⟩
    · rw [show cfgCounter.steps s = none from by simp [cfgCounter, h0, h1]] at hm
      cases hm

theorem chains_execute_in_call_order_witness :
    PureCfg cfgCounter ∧ IsIdle e0 ∧
    (IsIdle (⟨8, 0, ⟨[], none⟩, none, none⟩ : WhatNow Nat Nat Nat Nat) ∧
     ChainSegs
       ([Ev.begin 0, Ev.invoke 0 0 0 5, Ev.change 5, Ev.invoke 1 5 0 0, Ev.change 6,
         Ev.stop, Ev.done, Ev.begin 0, Ev.invoke 0 6 0 7, Ev.change 7,
         Ev.invoke 1 7 0 0, Ev.change 8, Ev.stop, Ev.done] : List (Ev Nat Nat Nat Nat))
       [0, 0]) := by
  refine ⟨cfgCounter_pure, ⟨rfl, rfl, rfl⟩, ?_⟩
  exact chains_execute_in_call_order.2 cfgCounter 5 [(0, 5), (0, 7)] e0
    (⟨8, 0, ⟨[], none⟩, none, none⟩,
     [Ev.begin 0, Ev.invoke 0 0 0 5, Ev.change 5, Ev.invoke 1 5 0 0, Ev.change 6,
      Ev.stop, Ev.done, Ev.begin 0, Ev.invoke 0 6 0 7, Ev.change 7,
      Ev.invoke 1 7 0 0, Ev.change 8, Ev.stop, Ev.done])
    cfgCounter_pure ⟨rfl, rfl, rfl⟩ (by decide)

end Whatnow
